import Mathlib

/-!
# Verification of the zigbee2mqtt traffic monitor (`monitor.py`)

A shallow embedding of the aggregation core of `monitor.py`:

* `TrafficHistory` with `add` (source: `TrafficHistory.add`), `pruneHistory`
  (source: `TrafficHistory._prune`) and `get_rates`
  (source: `TrafficHistory.get_rates`);
* the topic-key extraction and the per-topic statistics table maintained by
  `on_message`;
* the report ordering of `print_report` (`sortStats`).

Python unbounded integers are `Nat`/`Int`; Python floats (timestamps, rates)
are exact rationals `ℚ`; Python `int(x)` truncation toward zero is `pyInt`;
the fallible float division of `get_rates` (which raises `ZeroDivisionError`
on a zero interval) returns `Option`.  Strings are `List Char`;
`str.split("/")`, `"/".join` and the substring test `in` are `pySplit`,
`joinSlash` and `charsContain`.
-/

/-- Python `int(q)` on a float/rational: truncation toward zero. -/
def pyInt (q : ℚ) : ℤ := q.num.tdiv q.den

/-- One per-second bucket of the traffic log: source `[ts_int, msgs, bytes]`
(`monitor.py` line 53). -/
structure Bucket where
  secondIndex : ℤ
  messageCount : ℕ
  byteCount : ℕ
deriving DecidableEq, Repr

/-- The sliding-window aggregator state: retention bound `max_seconds`
(default 900) and the deque `history`, head = oldest. -/
structure TrafficHistory where
  max_seconds : ℕ
  history : List Bucket
deriving DecidableEq, Repr

/-- The insertion step of `TrafficHistory.add` (`monitor.py` lines 59-63):
coalesce into the tail bucket when its second matches, else append. -/
def addBucket (s : ℤ) (size : ℕ) : List Bucket → List Bucket
  | [] => [⟨s, 1, size⟩]
  | [b] =>
    if b.secondIndex = s then
      [⟨b.secondIndex, b.messageCount + 1, b.byteCount + size⟩]
    else
      [b, ⟨s, 1, size⟩]
  | b :: b' :: rest => b :: addBucket s size (b' :: rest)

/-- Source `TrafficHistory._prune` (`monitor.py` lines 66-69): pop from the head
while the head bucket's second is `< cutoff`. -/
def pruneHistory (cutoff : ℤ) : List Bucket → List Bucket
  | [] => []
  | b :: rest => if b.secondIndex < cutoff then pruneHistory cutoff rest else b :: rest

/-- The body of `TrafficHistory.add` with the second already truncated. -/
def TrafficHistory.addSec (t : TrafficHistory) (s : ℤ) (size : ℕ) : TrafficHistory :=
  { t with history := pruneHistory (s - t.max_seconds) (addBucket s size t.history) }

/-- Source `TrafficHistory.add` (`monitor.py` lines 56-64): `ts_int = int(ts)`,
coalesce-or-append, then prune relative to `ts_int`. -/
def TrafficHistory.add (t : TrafficHistory) (ts : ℚ) (size : ℕ) : TrafficHistory :=
  t.addSec (pyInt ts) size

/-- Source `TrafficHistory._prune` acting on the whole state. -/
def TrafficHistory.prune (t : TrafficHistory) (now_int : ℤ) : TrafficHistory :=
  { t with history := pruneHistory (now_int - t.max_seconds) t.history }

/-- Source `TrafficHistory.get_rates` (`monitor.py` lines 71-81): truncate `now`,
prune, then for each interval return the filtered sums divided by the
interval.  `Rat.divInt m w` is the exact value of the Python division
`m / w`; a zero interval raises `ZeroDivisionError` in the source, hence
`none`. -/
def TrafficHistory.get_rates (t : TrafficHistory) (now : ℚ) (intervals : List ℤ) :
    Option (List (ℚ × ℚ)) :=
  let now_int := pyInt now
  let h := pruneHistory (now_int - t.max_seconds) t.history
  intervals.mapM fun seconds =>
    if seconds = 0 then none
    else
      let cutoff := now_int - seconds
      let msgs := ((h.filter fun b => cutoff < b.secondIndex).map Bucket.messageCount).sum
      let bts := ((h.filter fun b => cutoff < b.secondIndex).map Bucket.byteCount).sum
      some (Rat.divInt msgs seconds, Rat.divInt bts seconds)

/-- A sequence of `record` calls on the aggregator. -/
def runEvents (t : TrafficHistory) (events : List (ℚ × ℕ)) : TrafficHistory :=
  events.foldl (fun acc e => acc.add e.1 e.2) t

/-- Modelled from the spec (for the refinement in C1): the rate formula as
the spec words it — first prune *all* buckets with
`secondIndex < floor(now) - maxRetentionSeconds`, then for each interval `w`
sum over exactly the buckets with `secondIndex > floor(now) - w` and divide
by `w`. -/
def specRates (t : TrafficHistory) (now : ℚ) (intervals : List ℤ) : List (ℚ × ℚ) :=
  let now_int := ⌊now⌋
  let pruned := t.history.filter fun b => ¬ b.secondIndex < now_int - t.max_seconds
  intervals.map fun seconds =>
    let cutoff := now_int - seconds
    (Rat.divInt ((pruned.filter fun b => cutoff < b.secondIndex).map Bucket.messageCount).sum seconds,
     Rat.divInt ((pruned.filter fun b => cutoff < b.secondIndex).map Bucket.byteCount).sum seconds)

/-- The log is strictly increasing in `secondIndex` (the WindowLog invariant
of the spec). -/
def SortedHist (l : List Bucket) : Prop :=
  l.Pairwise fun a b => a.secondIndex < b.secondIndex

instance : DecidablePred SortedHist := fun l =>
  List.instDecidablePairwise l

/-- Python `str.split("/")` on a character list. -/
def pySplit : List Char → List (List Char)
  | [] => [[]]
  | c :: rest =>
    match pySplit rest with
    | [] => [[]]
    | g :: gs => if c = '/' then [] :: g :: gs else (c :: g) :: gs

/-- Python `"/".join(...)` on character lists. -/
def joinSlash : List (List Char) → List Char
  | [] => []
  | [g] => g
  | g :: g' :: gs => g ++ '/' :: joinSlash (g' :: gs)

/-- The display-key extraction of `on_message` (`monitor.py` lines 110-116):
split on `/`, keep segments `[1:min(len(parts), detail+1)]`, join with `/`,
and fall back to the whole topic when the join is empty. -/
def extractDevice (topic : List Char) (detail : ℕ) : List Char :=
  let parts := pySplit topic
  let depth := min parts.length (detail + 1)
  let device := joinSlash ((parts.take depth).drop 1)
  if device = [] then topic else device

/-- Python `needle == hay[:len(needle)]`, the head case of substring
search. -/
def charsStartWith : List Char → List Char → Bool
  | [], _ => true
  | _ :: _, [] => false
  | c :: cs, d :: ds => c = d && charsStartWith cs ds

/-- Python `needle in hay` (substring anywhere). -/
def charsContain (needle : List Char) : List Char → Bool
  | [] => needle.isEmpty
  | d :: rest => charsStartWith needle (d :: rest) || charsContain needle rest

/-- The per-key counters of `topic_stats` (`monitor.py` line 85). -/
structure TopicCounters where
  count : ℕ
  bytes : ℕ
  last_seen : ℚ
deriving DecidableEq, Repr

/-- The `topic_stats[device]` update of `on_message` (lines 124-126), on an
insertion-ordered association list: the `defaultdict` creates `{0, 0, 0}` for
an absent key, then `count += 1`, `bytes += size`, `last_seen = now`. -/
def updateStats (key : List Char) (size : ℕ) (now : ℚ) :
    List (List Char × TopicCounters) → List (List Char × TopicCounters)
  | [] => [(key, ⟨1, size, now⟩)]
  | (k, c) :: rest =>
    if k = key then (k, ⟨c.count + 1, c.bytes + size, now⟩) :: rest
    else (k, c) :: updateStats key size now rest

/-- Dictionary lookup in the insertion-ordered table. -/
def findStat (key : List Char) : List (List Char × TopicCounters) → Option TopicCounters
  | [] => none
  | (k, c) :: rest => if k = key then some c else findStat key rest

/-- A sequence of table updates (the `stats_lock` block of `on_message`,
one triple `(key, size, now)` per call). -/
def runStats (stats : List (List Char × TopicCounters))
    (calls : List (List Char × ℕ × ℚ)) : List (List Char × TopicCounters) :=
  calls.foldl (fun st c => updateStats c.1 c.2.1 c.2.2 st) stats

/-- The configuration consumed by `on_message`. -/
structure MonitorConfig where
  base_topic : List Char
  ignore_bridge : Bool
  detail : ℕ

/-- The mutable globals touched by `on_message`:
`topic_stats`, `total_messages`, `total_bytes`, `traffic_history`. -/
structure MonitorState where
  topic_stats : List (List Char × TopicCounters)
  total_messages : ℕ
  total_bytes : ℕ
  traffic_history : TrafficHistory
deriving DecidableEq

/-- The initial globals of `monitor.py` (lines 84-89). -/
def initState : MonitorState := ⟨[], 0, 0, ⟨900, []⟩⟩

/-- Source `on_message` (`monitor.py` lines 102-128) acting on the globals: the
ignore-bridge early return, key extraction, counter updates and the
traffic-history `add`. -/
def on_message (cfg : MonitorConfig) (st : MonitorState) (topic : List Char)
    (payload_size : ℕ) (now : ℚ) : MonitorState :=
  if cfg.ignore_bridge && charsContain (cfg.base_topic ++ "/bridge".toList) topic then st
  else
    let device := extractDevice topic cfg.detail
    { topic_stats := updateStats device payload_size now st.topic_stats
      total_messages := st.total_messages + 1
      total_bytes := st.total_bytes + payload_size
      traffic_history := st.traffic_history.add now payload_size }

/-- A stream of deliveries `(topic, payload_size, now)` fed to
`on_message`. -/
def runMessages (cfg : MonitorConfig) (st : MonitorState)
    (msgs : List (List Char × ℕ × ℚ)) : MonitorState :=
  msgs.foldl (fun s m => on_message cfg s m.1 m.2.1 m.2.2) st

/-- One step of the stable descending sort of `print_report` (line 213),
`current_stats.sort(key=lambda x: x[1]["count"], reverse=True)`: a row is
placed after every existing row whose count is `≥` its own. -/
def insertRow (x : List Char × TopicCounters) :
    List (List Char × TopicCounters) → List (List Char × TopicCounters)
  | [] => [x]
  | y :: ys => if x.2.count ≤ y.2.count then y :: insertRow x ys else x :: y :: ys

/-- The report ordering of `print_report`: Python's stable sort by
descending count. -/
def sortStats (stats : List (List Char × TopicCounters)) :
    List (List Char × TopicCounters) :=
  stats.foldl (fun acc x => insertRow x acc) []

/-- The inductive invariant of the aggregator after processing a
non-decreasing event stream whose last second is `s`: the log is strictly
increasing, and every bucket's second lies in `[s - max_seconds, s]`. -/
def InvP (t : TrafficHistory) (s : ℤ) : Prop :=
  SortedHist t.history ∧
    ∀ b ∈ t.history, b.secondIndex ≤ s ∧ s - t.max_seconds ≤ b.secondIndex

/-- The timestamp of the last event of a stream (`t0` when it is empty). -/
def lastTs (t0 : ℚ) : List (ℚ × ℕ) → ℚ
  | [] => t0
  | e :: es => lastTs e.1 es

/-- The action of one `record(key, size, timestamp)` call on the counters
stored for one fixed key (`none` = key absent). -/
def statStep (acc : Option TopicCounters) (c : List Char × ℕ × ℚ) :
    Option TopicCounters :=
  some (match acc with
        | none => ⟨1, c.2.1, c.2.2⟩
        | some x => ⟨x.count + 1, x.bytes + c.2.1, c.2.2⟩)

/-- Report rows sorted by non-increasing message count. -/
def RowsSortedDesc (l : List (List Char × TopicCounters)) : Prop :=
  l.Pairwise fun x y => y.2.count ≤ x.2.count

/-- Ten events of size 5 recorded at timestamps 100.1 .. 100.9 (all within
the integer second 100; the ninth timestamp repeats to make ten events). -/
def tenEvents : List (ℚ × ℕ) :=
  [(mkRat 1001 10, 5), (mkRat 1002 10, 5), (mkRat 1003 10, 5), (mkRat 1004 10, 5),
   (mkRat 1005 10, 5), (mkRat 1006 10, 5), (mkRat 1007 10, 5), (mkRat 1008 10, 5),
   (mkRat 1009 10, 5), (mkRat 1009 10, 5)]

/-- Sixty events of 10 bytes each, one in every distinct second
941 .. 1000: 600 bytes spread evenly over the 60 seconds ending at
`now = 1000`. -/
def sixtyEvents : List (ℚ × ℕ) :=
  (List.range 60).map fun k => (mkRat (941 + (k : ℤ)) 1, 10)

/-- Python truncation agrees with the floor on non-negative inputs
(timestamps are non-negative wall-clock seconds). -/
theorem pyInt_eq_floor (q : ℚ) (hq : 0 ≤ q) : pyInt q = ⌊q⌋ := by
  show q.num.tdiv q.den = ⌊q⌋
  rw [Rat.floor_def]
  exact Int.tdiv_eq_ediv (Rat.num_nonneg.mpr hq) (Int.natCast_nonneg q.den)

theorem addBucket_eq_last (l : List Bucket) (h : l ≠ []) (s : ℤ) (size : ℕ)
    (hs : (l.getLast h).secondIndex = s) :
    addBucket s size l
      = l.dropLast
          ++ [⟨s, (l.getLast h).messageCount + 1, (l.getLast h).byteCount + size⟩] := by
  induction l with
  | nil => exact absurd rfl h
  | cons b rest ih =>
    cases rest with
    | nil =>
      simp only [List.getLast_singleton] at hs ⊢
      subst hs
      simp [addBucket]
    | cons b' rest' =>
      have h' : b' :: rest' ≠ [] := List.cons_ne_nil _ _
      rw [List.getLast_cons h'] at hs ⊢
      show b :: addBucket s size (b' :: rest') = _
      rw [ih h' hs, List.dropLast_cons₂, List.cons_append]

theorem addBucket_ne_last (l : List Bucket) (h : l ≠ []) (s : ℤ) (size : ℕ)
    (hs : (l.getLast h).secondIndex ≠ s) :
    addBucket s size l = l ++ [⟨s, 1, size⟩] := by
  induction l with
  | nil => exact absurd rfl h
  | cons b rest ih =>
    cases rest with
    | nil =>
      simp only [List.getLast_singleton] at hs
      simp [addBucket, hs]
    | cons b' rest' =>
      have h' : b' :: rest' ≠ [] := List.cons_ne_nil _ _
      rw [List.getLast_cons h'] at hs
      show b :: addBucket s size (b' :: rest') = _
      rw [ih h' hs]
      simp

theorem addBucket_mem_sec (s : ℤ) (size : ℕ) (l : List Bucket) :
    ∀ b ∈ addBucket s size l,
      b.secondIndex = s ∨ ∃ b' ∈ l, b.secondIndex = b'.secondIndex := by
  induction l with
  | nil =>
    intro b hb
    simp only [addBucket, List.mem_singleton] at hb
    exact Or.inl (hb ▸ rfl)
  | cons b0 rest ih =>
    cases rest with
    | nil =>
      intro b hb
      by_cases hc : b0.secondIndex = s
      · simp only [addBucket, if_pos hc, List.mem_singleton] at hb
        exact Or.inl (hb ▸ hc)
      · simp only [addBucket, if_neg hc, List.mem_cons, List.not_mem_nil, or_false] at hb
        rcases hb with hb | hb
        · exact Or.inr ⟨b0, List.mem_cons_self _ _, hb ▸ rfl⟩
        · exact Or.inl (hb ▸ rfl)
    | cons b' rest' =>
      intro b hb
      rcases List.mem_cons.mp hb with hb | hb
      · exact Or.inr ⟨b0, List.mem_cons_self _ _, hb ▸ rfl⟩
      · rcases ih b hb with h1 | ⟨b'', hb'', h2⟩
        · exact Or.inl h1
        · exact Or.inr ⟨b'', List.mem_cons_of_mem _ hb'', h2⟩

theorem addBucket_ub (s : ℤ) (size : ℕ) (l : List Bucket)
    (hub : ∀ b ∈ l, b.secondIndex ≤ s) :
    ∀ b ∈ addBucket s size l, b.secondIndex ≤ s := by
  intro b hb
  rcases addBucket_mem_sec s size l b hb with h | ⟨b', hb', h⟩
  · exact h.le
  · exact h ▸ hub b' hb'

theorem addBucket_sorted (s : ℤ) (size : ℕ) (l : List Bucket)
    (hs : SortedHist l) (hub : ∀ b ∈ l, b.secondIndex ≤ s) :
    SortedHist (addBucket s size l) := by
  induction l with
  | nil => simp [addBucket, SortedHist]
  | cons b0 rest ih =>
    rcases List.pairwise_cons.mp hs with ⟨hhead, htail⟩
    cases rest with
    | nil =>
      by_cases hc : b0.secondIndex = s
      · simp [addBucket, if_pos hc, SortedHist]
      · simp only [addBucket, if_neg hc, SortedHist]
        have : b0.secondIndex < s := lt_of_le_of_ne (hub b0 (List.mem_cons_self _ _)) hc
        simp [this]
    | cons b' rest' =>
      show SortedHist (b0 :: addBucket s size (b' :: rest'))
      refine List.pairwise_cons.mpr ⟨?_, ih htail
        (fun x hx => hub x (List.mem_cons_of_mem _ hx))⟩
      intro x hx
      rcases addBucket_mem_sec s size (b' :: rest') x hx with h1 | ⟨b'', hb'', h2⟩
      · have hb0b' : b0.secondIndex < b'.secondIndex := hhead b' (List.mem_cons_self _ _)
        have : b'.secondIndex ≤ s := hub b' (List.mem_cons_of_mem _ (List.mem_cons_self _ _))
        omega
      · exact h2 ▸ hhead b'' hb''

theorem pruneHistory_sublist (cutoff : ℤ) (l : List Bucket) :
    List.Sublist (pruneHistory cutoff l) l := by
  induction l with
  | nil => exact List.Sublist.refl _
  | cons b rest ih =>
    by_cases hc : b.secondIndex < cutoff
    · simpa [pruneHistory, hc] using ih.trans (List.sublist_cons_self b rest)
    · simp [pruneHistory, hc]

theorem pruneHistory_head_ge (cutoff : ℤ) (l : List Bucket) :
    ∀ h : pruneHistory cutoff l ≠ [],
      cutoff ≤ (((pruneHistory cutoff l)).head h).secondIndex := by
  induction l with
  | nil => intro h; exact absurd rfl h
  | cons b rest ih =>
    by_cases hc : b.secondIndex < cutoff
    · simpa [pruneHistory, hc] using ih
    · intro h
      simp only [pruneHistory, if_neg hc] at h ⊢
      simpa using not_lt.mp hc

theorem pruneHistory_mem_ge (cutoff : ℤ) (l : List Bucket) (hs : SortedHist l) :
    ∀ b ∈ pruneHistory cutoff l, cutoff ≤ b.secondIndex := by
  induction l with
  | nil => intro b hb; simp [pruneHistory] at hb
  | cons b0 rest ih =>
    rcases List.pairwise_cons.mp hs with ⟨hhead, htail⟩
    by_cases hc : b0.secondIndex < cutoff
    · simpa [pruneHistory, hc] using ih htail
    · intro b hb
      simp only [pruneHistory, if_neg hc, List.mem_cons] at hb
      rcases hb with rfl | hb
      · exact not_lt.mp hc
      · exact le_of_lt (lt_of_le_of_lt (not_lt.mp hc) (hhead b hb))

theorem pruneHistory_filter (cutoff : ℤ) (l : List Bucket) (p : Bucket → Bool)
    (hp : ∀ b : Bucket, b.secondIndex < cutoff → p b = false) :
    (pruneHistory cutoff l).filter p = l.filter p := by
  induction l with
  | nil => rfl
  | cons b rest ih =>
    by_cases hc : b.secondIndex < cutoff
    · simp only [pruneHistory, if_pos hc, List.filter_cons, hp b hc]
      exact ih
    · simp [pruneHistory, hc]

theorem pruneHistory_of_sorted (cutoff : ℤ) (l : List Bucket) (hs : SortedHist l) :
    pruneHistory cutoff l = l.filter fun b => ¬ b.secondIndex < cutoff := by
  induction l with
  | nil => rfl
  | cons b0 rest ih =>
    rcases List.pairwise_cons.mp hs with ⟨hhead, htail⟩
    by_cases hc : b0.secondIndex < cutoff
    · simp only [pruneHistory, if_pos hc, List.filter_cons]
      rw [ih htail]
      simp [hc]
    · simp only [pruneHistory, if_neg hc]
      have h1 : ∀ x ∈ rest, ¬ x.secondIndex < cutoff := by
        intro x hx
        have := hhead x hx
        omega
      symm
      apply List.filter_eq_self.mpr
      intro x hx
      rcases List.mem_cons.mp hx with rfl | hx
      · simpa using hc
      · simpa using h1 x hx

theorem pruneHistory_all_lt (cutoff : ℤ) (l : List Bucket) (new : Bucket)
    (hall : ∀ b ∈ l, b.secondIndex < cutoff) (hnew : ¬ new.secondIndex < cutoff) :
    pruneHistory cutoff (l ++ [new]) = [new] := by
  induction l with
  | nil => simp [pruneHistory, hnew]
  | cons b rest ih =>
    simp only [List.cons_append, pruneHistory, if_pos (hall b (List.mem_cons_self _ _))]
    exact ih (fun x hx => hall x (List.mem_cons_of_mem _ hx))

theorem sorted_length_le (l : List Bucket) (lo hi : ℤ) (hs : SortedHist l)
    (hlo : ∀ b ∈ l, lo ≤ b.secondIndex) (hhi : ∀ b ∈ l, b.secondIndex ≤ hi) :
    l.length ≤ (hi - lo + 1).toNat := by
  induction l generalizing lo with
  | nil => simp
  | cons b rest ih =>
    rcases List.pairwise_cons.mp hs with ⟨hhead, htail⟩
    have h2 := ih (b.secondIndex + 1) htail
      (fun x hx => by have := hhead x hx; omega)
      (fun x hx => hhi x (List.mem_cons_of_mem _ hx))
    have hb1 : lo ≤ b.secondIndex := hlo b (List.mem_cons_self _ _)
    have hb2 : b.secondIndex ≤ hi := hhi b (List.mem_cons_self _ _)
    simp only [List.length_cons]
    omega

theorem sorted_le_getLast (l : List Bucket) (hs : SortedHist l) (h : l ≠ []) :
    ∀ b ∈ l, b.secondIndex ≤ (l.getLast h).secondIndex := by
  induction l with
  | nil => exact absurd rfl h
  | cons b0 rest ih =>
    rcases List.pairwise_cons.mp hs with ⟨hhead, htail⟩
    cases rest with
    | nil => simp
    | cons b' rest' =>
      intro x hx
      have h' : b' :: rest' ≠ [] := List.cons_ne_nil _ _
      rw [List.getLast_cons h']
      rcases List.mem_cons.mp hx with rfl | hx
      · exact le_of_lt (hhead _ (List.getLast_mem h'))
      · exact ih htail h' x hx

theorem mapM_eq_map {α β : Type} (l : List α) (f : α → Option β) (g : α → β)
    (h : ∀ a ∈ l, f a = some (g a)) : l.mapM f = some (l.map g) := by
  induction l with
  | nil => rfl
  | cons a as ih =>
    rw [List.mapM_cons, h a (List.mem_cons_self _ _),
      ih (fun x hx => h x (List.mem_cons_of_mem _ hx))]
    rfl

theorem addSec_invP (t : TrafficHistory) (s s' : ℤ) (size : ℕ)
    (h : InvP t s) (hle : s ≤ s') : InvP (t.addSec s' size) s' := by
  obtain ⟨hsorted, hbnd⟩ := h
  have hub : ∀ b ∈ t.history, b.secondIndex ≤ s' :=
    fun b hb => le_trans (hbnd b hb).1 hle
  have hsorted' := addBucket_sorted s' size t.history hsorted hub
  have hub' := addBucket_ub s' size t.history hub
  constructor
  · exact hsorted'.sublist (pruneHistory_sublist _ _)
  · intro b hb
    have hmem : b ∈ addBucket s' size t.history :=
      (pruneHistory_sublist _ _).subset hb
    exact ⟨hub' b hmem, pruneHistory_mem_ge _ _ hsorted' b hb⟩

theorem invP_empty (max : ℕ) (s : ℤ) : InvP ⟨max, []⟩ s :=
  ⟨List.Pairwise.nil, by simp⟩

theorem lastTs_cases (es : List (ℚ × ℕ)) :
    ∀ t0 : ℚ, lastTs t0 es = t0 ∨ ∃ e ∈ es, lastTs t0 es = e.1 := by
  induction es with
  | nil => intro t0; exact Or.inl rfl
  | cons e es ih =>
    intro t0
    rcases ih e.1 with h | ⟨e', he', h⟩
    · exact Or.inr ⟨e, List.mem_cons_self _ _, h⟩
    · exact Or.inr ⟨e', List.mem_cons_of_mem _ he', h⟩

theorem lastTs_le (pre : List (ℚ × ℕ)) :
    ∀ (p : ℚ × ℕ) (t : ℚ),
      List.Chain' (· ≤ ·) (((p :: pre).map Prod.fst) ++ [t]) →
      lastTs p.1 pre ≤ t := by
  induction pre with
  | nil =>
    intro p t h
    exact (List.chain'_cons.mp h).1
  | cons q rest ih =>
    intro p t h
    exact ih q t (List.chain'_cons.mp h).2

theorem runEvents_invP (events : List (ℚ × ℕ)) :
    ∀ (t : TrafficHistory) (t0 : ℚ),
      InvP t (pyInt t0) →
      List.Chain' (· ≤ ·) (t0 :: events.map Prod.fst) →
      (∀ e ∈ events, 0 ≤ e.1) → 0 ≤ t0 →
      InvP (runEvents t events) (pyInt (lastTs t0 events)) := by
  induction events with
  | nil => intro t t0 h _ _ _; exact h
  | cons e es ih =>
    intro t t0 h hchain hnn h0
    have h1 : t0 ≤ e.1 := (List.chain'_cons.mp hchain).1
    have h0e : 0 ≤ e.1 := hnn e (List.mem_cons_self _ _)
    have hpy : pyInt t0 ≤ pyInt e.1 := by
      rw [pyInt_eq_floor _ h0, pyInt_eq_floor _ h0e]
      exact Int.floor_le_floor h1
    have hstep := addSec_invP t (pyInt t0) (pyInt e.1) e.2 h hpy
    exact ih (t.add e.1 e.2) e.1 hstep (List.chain'_cons.mp hchain).2
      (fun x hx => hnn x (List.mem_cons_of_mem _ hx)) h0e

theorem runEvents_sorted (max : ℕ) (events : List (ℚ × ℕ))
    (hchain : List.Chain' (· ≤ ·) (events.map Prod.fst))
    (hnn : ∀ e ∈ events, 0 ≤ e.1) :
    SortedHist (runEvents ⟨max, []⟩ events).history := by
  cases events with
  | nil => exact List.Pairwise.nil
  | cons p rest =>
    have h0 : 0 ≤ p.1 := hnn p (List.mem_cons_self _ _)
    have hchain' : List.Chain' (· ≤ ·) (p.1 :: (p :: rest).map Prod.fst) :=
      List.chain'_cons.mpr ⟨le_refl _, hchain⟩
    exact (runEvents_invP (p :: rest) ⟨max, []⟩ p.1 (invP_empty max _)
      hchain' hnn h0).1

theorem TrafficHistory.add_def (t : TrafficHistory) (ts : ℚ) (size : ℕ) :
    t.add ts size = t.addSec (pyInt ts) size := rfl

theorem runEvents_max (events : List (ℚ × ℕ)) :
    ∀ t : TrafficHistory, (runEvents t events).max_seconds = t.max_seconds := by
  induction events with
  | nil => intro t; rfl
  | cons e es ih => intro t; exact ih (t.add e.1 e.2)

/-- C3: for every non-decreasing sequence of `record` calls, after each call
with timestamp `t` (second `s = floor(t)`): no bucket with
`secondIndex < s - maxRetentionSeconds` remains, the log holds at most
`maxRetentionSeconds + 1` buckets, and a jump of more than
`maxRetentionSeconds` past the previous tail bucket leaves exactly the
single new bucket `{s, 1, size}`. -/
theorem C3_bucket_retention (max : ℕ) (pre : List (ℚ × ℕ)) (t : ℚ) (size : ℕ)
    (hchain : List.Chain' (· ≤ ·) ((pre ++ [(t, size)]).map Prod.fst))
    (hnn : ∀ e ∈ pre ++ [(t, size)], 0 ≤ e.1) :
    (∀ b ∈ (runEvents ⟨max, []⟩ (pre ++ [(t, size)])).history,
        ¬ b.secondIndex < ⌊t⌋ - max) ∧
    (runEvents ⟨max, []⟩ (pre ++ [(t, size)])).history.length ≤ max + 1 ∧
    (∀ h : (runEvents ⟨max, []⟩ pre).history ≠ [],
        ((runEvents ⟨max, []⟩ pre).history.getLast h).secondIndex + max < ⌊t⌋ →
        (runEvents ⟨max, []⟩ (pre ++ [(t, size)])).history = [⟨⌊t⌋, 1, size⟩]) := by
  have h0t : 0 ≤ t := hnn (t, size) (List.mem_append_right _ (List.mem_cons_self _ _))
  have hfl : pyInt t = ⌊t⌋ := pyInt_eq_floor t h0t
  have hrun : runEvents ⟨max, []⟩ (pre ++ [(t, size)])
      = (runEvents ⟨max, []⟩ pre).add t size := by
    simp [runEvents, List.foldl_append]
  have hms : (runEvents ⟨max, []⟩ pre).max_seconds = max := runEvents_max pre _
  obtain ⟨sp, hInv, hsple⟩ :
      ∃ sp : ℤ, InvP (runEvents ⟨max, []⟩ pre) sp ∧ sp ≤ pyInt t := by
    cases pre with
    | nil => exact ⟨pyInt t, invP_empty _ _, le_refl _⟩
    | cons p rest =>
      have hmapeq : ((p :: rest) ++ [(t, size)]).map Prod.fst
          = ((p :: rest).map Prod.fst) ++ [t] := by simp
      rw [hmapeq] at hchain
      have h0p : 0 ≤ p.1 := hnn p (List.mem_append_left _ (List.mem_cons_self _ _))
      have hchainpre : List.Chain' (· ≤ ·) ((p :: rest).map Prod.fst) :=
        (List.chain'_append.mp hchain).1
      have hchain2 : List.Chain' (· ≤ ·) (p.1 :: (p :: rest).map Prod.fst) :=
        List.chain'_cons.mpr ⟨le_refl _, hchainpre⟩
      have hle : lastTs p.1 rest ≤ t := lastTs_le rest p t hchain
      have h0last : 0 ≤ lastTs p.1 rest := by
        rcases lastTs_cases rest p.1 with h | ⟨e, he, h⟩
        · rw [h]; exact h0p
        · rw [h]
          exact hnn e (List.mem_append_left _ (List.mem_cons_of_mem _ he))
      refine ⟨pyInt (lastTs p.1 rest),
        runEvents_invP (p :: rest) ⟨max, []⟩ p.1 (invP_empty _ _) hchain2
          (fun e he => hnn e (List.mem_append_left _ he)) h0p, ?_⟩
      rw [pyInt_eq_floor _ h0last, hfl]
      exact Int.floor_le_floor hle
  have hstep := addSec_invP (runEvents ⟨max, []⟩ pre) sp (pyInt t) size hInv hsple
  rw [hrun, TrafficHistory.add_def]
  refine ⟨?_, ?_, ?_⟩
  · intro b hb
    have hb2 := (hstep.2 b hb).2
    simp only [TrafficHistory.addSec] at hb2
    rw [hfl] at hb2
    simp only [hms] at hb2
    omega
  · have hlen := sorted_length_le _ (pyInt t - (runEvents ⟨max, []⟩ pre).max_seconds)
      (pyInt t) hstep.1
      (fun b hb => (hstep.2 b hb).2) (fun b hb => (hstep.2 b hb).1)
    simp only [hms] at hlen
    omega
  · intro h hjump
    rw [← hfl] at hjump
    obtain ⟨hsorPre, hbndPre⟩ := hInv
    have hallle := sorted_le_getLast _ hsorPre h
    have hlastlt : ((runEvents ⟨max, []⟩ pre).history.getLast h).secondIndex
        < pyInt t - max := by omega
    have hallLt : ∀ b ∈ (runEvents ⟨max, []⟩ pre).history,
        b.secondIndex < pyInt t - max :=
      fun b hb => lt_of_le_of_lt (hallle b hb) hlastlt
    have hlastne : ((runEvents ⟨max, []⟩ pre).history.getLast h).secondIndex
        ≠ pyInt t := by omega
    have haddeq := addBucket_ne_last _ h (pyInt t) size hlastne
    show ((runEvents ⟨max, []⟩ pre).addSec (pyInt t) size).history = _
    simp only [TrafficHistory.addSec]
    rw [haddeq, hms, ← hfl]
    exact pruneHistory_all_lt _ _ _ hallLt
      (by show ¬ pyInt t < pyInt t - (max : ℤ); omega)

theorem C3_bucket_retention_witness :
    List.Chain' (· ≤ ·) (([((mkRat 3 2 : ℚ), 4)] ++ [((10 : ℚ), 7)]).map Prod.fst) ∧
    (∀ e ∈ [((mkRat 3 2 : ℚ), 4)] ++ [((10 : ℚ), 7)], 0 ≤ e.1) ∧
    ((∀ b ∈ (runEvents ⟨3, []⟩ ([((mkRat 3 2 : ℚ), 4)] ++ [((10 : ℚ), 7)])).history,
        ¬ b.secondIndex < ⌊(10 : ℚ)⌋ - 3) ∧
     (runEvents ⟨3, []⟩ ([((mkRat 3 2 : ℚ), 4)] ++ [((10 : ℚ), 7)])).history.length ≤ 3 + 1 ∧
     (∀ h : (runEvents ⟨3, []⟩ [((mkRat 3 2 : ℚ), 4)]).history ≠ [],
        ((runEvents ⟨3, []⟩ [((mkRat 3 2 : ℚ), 4)]).history.getLast h).secondIndex + 3
            < ⌊(10 : ℚ)⌋ →
        (runEvents ⟨3, []⟩ ([((mkRat 3 2 : ℚ), 4)] ++ [((10 : ℚ), 7)])).history
            = [⟨⌊(10 : ℚ)⌋, 1, 7⟩])) :=
  ⟨by show List.Chain' (· ≤ ·) [(mkRat 3 2 : ℚ), (10 : ℚ)]
      exact List.chain'_cons.mpr ⟨by decide, List.chain'_singleton _⟩,
   by decide,
   C3_bucket_retention 3 [((mkRat 3 2 : ℚ), 4)] (10 : ℚ) 7
     (by show List.Chain' (· ≤ ·) [(mkRat 3 2 : ℚ), (10 : ℚ)]
         exact List.chain'_cons.mpr ⟨by decide, List.chain'_singleton _⟩)
     (by decide)⟩

/-- C4 (amended): under non-decreasing timestamps the WindowLog is strictly
increasing in `secondIndex` after every `record` call; and after pruning the
head bucket always satisfies `secondIndex >= now_int - maxRetentionSeconds`
(for out-of-order timestamps the strict increase fails, see the
counterexample). -/
theorem C4_windowlog_invariant :
    (∀ (max : ℕ) (events : List (ℚ × ℕ)),
        List.Chain' (· ≤ ·) (events.map Prod.fst) →
        (∀ e ∈ events, 0 ≤ e.1) →
        SortedHist (runEvents ⟨max, []⟩ events).history) ∧
    (∀ (t : TrafficHistory) (now_int : ℤ)
        (h : (t.prune now_int).history ≠ []),
        now_int - t.max_seconds ≤ ((t.prune now_int).history.head h).secondIndex) :=
  ⟨fun max events hc hn => runEvents_sorted max events hc hn,
   fun t now_int h => pruneHistory_head_ge (now_int - t.max_seconds) t.history h⟩

theorem C4_windowlog_invariant_witness :
    List.Chain' (· ≤ ·) ([((50 : ℚ), 1), ((100 : ℚ), 2)].map Prod.fst) ∧
    (∀ e ∈ [((50 : ℚ), 1), ((100 : ℚ), 2)], 0 ≤ e.1) ∧
    SortedHist (runEvents ⟨900, []⟩ [((50 : ℚ), 1), ((100 : ℚ), 2)]).history ∧
    ((6 : ℤ) - ((⟨10, [⟨5, 1, 1⟩]⟩ : TrafficHistory)).max_seconds ≤
      (((⟨10, [⟨5, 1, 1⟩]⟩ : TrafficHistory).prune 6).history.head
        (by decide)).secondIndex) :=
  ⟨by show List.Chain' (· ≤ ·) [(50 : ℚ), (100 : ℚ)]
      exact List.chain'_cons.mpr ⟨by decide, List.chain'_singleton _⟩,
   by decide,
   C4_windowlog_invariant.1 900 [((50 : ℚ), 1), ((100 : ℚ), 2)]
     (by show List.Chain' (· ≤ ·) [(50 : ℚ), (100 : ℚ)]
         exact List.chain'_cons.mpr ⟨by decide, List.chain'_singleton _⟩)
     (by decide),
   C4_windowlog_invariant.2 ⟨10, [⟨5, 1, 1⟩]⟩ 6 (by decide)⟩

/-- C4 counterexample: with the out-of-order timestamps 100 then 50 the log
is `[{100,1,1}, {50,1,1}]`, which is not strictly increasing in
`secondIndex` — the claimed invariant fails for out-of-order sequences. -/
theorem C4_windowlog_invariant_cex :
    (runEvents ⟨900, []⟩ [((100 : ℚ), 1), ((50 : ℚ), 1)]).history
        = [⟨100, 1, 1⟩, ⟨50, 1, 1⟩] ∧
    ¬ SortedHist (runEvents ⟨900, []⟩ [((100 : ℚ), 1), ((50 : ℚ), 1)]).history := by
  exact ⟨by decide, by decide⟩

theorem filter_filter_of_imp {α : Type} (l : List α) (p q : α → Bool)
    (h : ∀ a ∈ l, p a = true → q a = true) :
    (l.filter q).filter p = l.filter p := by
  induction l with
  | nil => rfl
  | cons a as ih =>
    have ih' := ih (fun x hx => h x (List.mem_cons_of_mem _ hx))
    by_cases hq : q a = true
    · by_cases hp : p a = true
      · simp [List.filter_cons, hq, hp, ih']
      · simp [List.filter_cons, hq, hp, ih']
    · have hp : ¬ p a = true := fun hp => hq (h a (List.mem_cons_self _ _) hp)
      simp [List.filter_cons, hq, hp, ih']

/-- C1 (amended): `get_rates` returns, in order, one pair `(M/w, B/w)` per
interval, where `M`/`B` sum the message/byte counts of the buckets with
`secondIndex > floor(now) - w` after the head-eviction prune.  This equals
the spec's prune-all formula (`specRates`) whenever the log is sorted (the
case for any non-decreasing ingest), and also, for arbitrary states,
whenever every requested interval is at most `maxRetentionSeconds`; the
600-bytes-over-60-seconds example evaluates to `(60/60, 600/60)`. -/
theorem C1_rates_refinement :
    (∀ (t : TrafficHistory) (now : ℚ) (intervals : List ℤ),
        0 ≤ now → (∀ w ∈ intervals, 0 < w) → SortedHist t.history →
        t.get_rates now intervals = some (specRates t now intervals)) ∧
    (∀ (t : TrafficHistory) (now : ℚ) (intervals : List ℤ),
        0 ≤ now → (∀ w ∈ intervals, 0 < w ∧ w ≤ t.max_seconds) →
        t.get_rates now intervals = some (specRates t now intervals)) ∧
    (runEvents ⟨900, []⟩ sixtyEvents).get_rates 1000 [60]
        = some [(Rat.divInt 60 60, Rat.divInt 600 60)] := by
  refine ⟨?_, ?_, by decide⟩
  · intro t now intervals h0 hpos hsorted
    have hfl : pyInt now = ⌊now⌋ := pyInt_eq_floor now h0
    have hpr : pruneHistory (⌊now⌋ - t.max_seconds) t.history
        = t.history.filter fun b => ¬ b.secondIndex < ⌊now⌋ - t.max_seconds :=
      pruneHistory_of_sorted _ _ hsorted
    simp only [TrafficHistory.get_rates, specRates, hfl, hpr]
    apply mapM_eq_map
    intro w hw
    rw [if_neg (by have := hpos w hw; omega)]
  · intro t now intervals h0 hbnd
    have hfl : pyInt now = ⌊now⌋ := pyInt_eq_floor now h0
    simp only [TrafficHistory.get_rates, specRates, hfl]
    apply mapM_eq_map
    intro w hw
    obtain ⟨hw0, hwmax⟩ := hbnd w hw
    rw [if_neg (by omega)]
    have hcode : (pruneHistory (⌊now⌋ - t.max_seconds) t.history).filter
          (fun b => ⌊now⌋ - w < b.secondIndex)
        = t.history.filter (fun b => ⌊now⌋ - w < b.secondIndex) := by
      apply pruneHistory_filter
      intro b hb
      simp only [decide_eq_false_iff_not]
      omega
    have hspec : ((t.history.filter fun b => ¬ b.secondIndex < ⌊now⌋ - t.max_seconds).filter
          (fun b => ⌊now⌋ - w < b.secondIndex))
        = t.history.filter (fun b => ⌊now⌋ - w < b.secondIndex) := by
      apply filter_filter_of_imp
      intro b hb hp
      simp only [decide_eq_true_eq] at hp
      simp only [decide_eq_true_eq]
      omega
    rw [hcode, hspec]

theorem C1_rates_refinement_witness :
    ((0 : ℚ) ≤ 20 ∧ (∀ w ∈ [(5 : ℤ)], 0 < w) ∧
      SortedHist ((⟨900, [⟨10, 2, 30⟩]⟩ : TrafficHistory)).history ∧
      (⟨900, [⟨10, 2, 30⟩]⟩ : TrafficHistory).get_rates 20 [5]
        = some (specRates ⟨900, [⟨10, 2, 30⟩]⟩ 20 [5])) ∧
    ((0 : ℚ) ≤ 120 ∧
      (∀ w ∈ [(60 : ℤ)], 0 < w ∧
        w ≤ (⟨900, [⟨100, 1, 1⟩, ⟨50, 1, 1⟩]⟩ : TrafficHistory).max_seconds) ∧
      (⟨900, [⟨100, 1, 1⟩, ⟨50, 1, 1⟩]⟩ : TrafficHistory).get_rates 120 [60]
        = some (specRates ⟨900, [⟨100, 1, 1⟩, ⟨50, 1, 1⟩]⟩ 120 [60])) :=
  ⟨⟨by decide, by decide, by decide,
      C1_rates_refinement.1 ⟨900, [⟨10, 2, 30⟩]⟩ 20 [5] (by decide) (by decide) (by decide)⟩,
   ⟨by decide, by decide,
      C1_rates_refinement.2.1 ⟨900, [⟨100, 1, 1⟩, ⟨50, 1, 1⟩]⟩ 120 [60]
        (by decide) (by decide)⟩⟩

/-- C1 counterexample: the reachable out-of-order state with buckets
`[{1000,1,1}, {50,1,1}]` (retention 900).  At `now = 1900` with the positive
interval `2000`, `get_rates` only head-prunes and stops at bucket 1000, so
the expired bucket 50 still contributes: the code returns `2/2000` per
second while the claimed prune-all formula gives `1/2000`. -/
theorem C1_rates_refinement_cex :
    (runEvents ⟨900, []⟩ [((1000 : ℚ), 1), ((50 : ℚ), 1)]).get_rates 1900 [2000]
        = some [(Rat.divInt 2 2000, Rat.divInt 2 2000)] ∧
    specRates (runEvents ⟨900, []⟩ [((1000 : ℚ), 1), ((50 : ℚ), 1)]) 1900 [2000]
        = [(Rat.divInt 1 2000, Rat.divInt 1 2000)] ∧
    (runEvents ⟨900, []⟩ [((1000 : ℚ), 1), ((50 : ℚ), 1)]).get_rates 1900 [2000]
        ≠ some (specRates (runEvents ⟨900, []⟩ [((1000 : ℚ), 1), ((50 : ℚ), 1)])
            1900 [2000]) :=
  ⟨by decide, by decide, by decide⟩

/-- C5: with zero events recorded, `get_rates` returns `(0.0, 0.0)` for
every (positive) requested interval, for every `now`, without dividing by
zero (the result is `some`, never the `ZeroDivisionError` case). -/
theorem C5_zero_events (max : ℕ) (now : ℚ) (intervals : List ℤ)
    (hpos : ∀ w ∈ intervals, 0 < w) :
    TrafficHistory.get_rates ⟨max, []⟩ now intervals
      = some (intervals.map fun _ => ((0 : ℚ), (0 : ℚ))) := by
  simp only [TrafficHistory.get_rates]
  apply mapM_eq_map
  intro w hw
  rw [if_neg (by have := hpos w hw; omega)]
  simp [pruneHistory, Rat.zero_divInt]

theorem C5_zero_events_witness :
    (∀ w ∈ [(60 : ℤ), 300, 900], 0 < w) ∧
    TrafficHistory.get_rates ⟨900, []⟩ (mkRat 12345 10) [60, 300, 900]
      = some [((0 : ℚ), 0), (0, 0), (0, 0)] :=
  ⟨by decide,
   C5_zero_events 900 (mkRat 12345 10) [60, 300, 900] (by decide)⟩

/-- C2: `record(ts, size)` works at `s = floor(ts)`: when the log is
non-empty and the tail bucket's second equals `s` that bucket is updated in
place (no bucket added), otherwise `{s, 1, size}` is appended at the tail;
the retention prune then runs on the result.  Recording the ten `tenEvents`
of size 5 inside second 100 yields exactly the single bucket
`{100, 10, 50}`. -/
theorem C2_record_coalesce :
    (∀ (t : TrafficHistory) (ts : ℚ) (size : ℕ), 0 ≤ ts →
      (t.add ts size).history
          = pruneHistory (⌊ts⌋ - t.max_seconds) (addBucket ⌊ts⌋ size t.history) ∧
      (∀ h : t.history ≠ [],
        ((t.history.getLast h).secondIndex = ⌊ts⌋ →
          addBucket ⌊ts⌋ size t.history
            = t.history.dropLast
                ++ [⟨⌊ts⌋, (t.history.getLast h).messageCount + 1,
                     (t.history.getLast h).byteCount + size⟩]) ∧
        ((t.history.getLast h).secondIndex ≠ ⌊ts⌋ →
          addBucket ⌊ts⌋ size t.history = t.history ++ [⟨⌊ts⌋, 1, size⟩])) ∧
      (t.history = [] → addBucket ⌊ts⌋ size t.history = [⟨⌊ts⌋, 1, size⟩])) ∧
    (runEvents ⟨900, []⟩ tenEvents).history = [⟨100, 10, 50⟩] := by
  refine ⟨?_, by decide⟩
  intro t ts size h0
  have hfl : pyInt ts = ⌊ts⌋ := pyInt_eq_floor ts h0
  refine ⟨?_, ?_, ?_⟩
  · rw [TrafficHistory.add_def]
    simp only [TrafficHistory.addSec]
    rw [hfl]
  · intro h
    exact ⟨fun hs => addBucket_eq_last t.history h ⌊ts⌋ size hs,
           fun hs => addBucket_ne_last t.history h ⌊ts⌋ size hs⟩
  · intro h
    rw [h]
    rfl

theorem C2_record_coalesce_witness :
    (0 : ℚ) ≤ mkRat 7 2 ∧
    (((⟨900, [⟨3, 1, 1⟩]⟩ : TrafficHistory).add (mkRat 7 2) 2).history
        = pruneHistory (⌊(mkRat 7 2 : ℚ)⌋ - (⟨900, [⟨3, 1, 1⟩]⟩ : TrafficHistory).max_seconds)
            (addBucket ⌊(mkRat 7 2 : ℚ)⌋ 2 (⟨900, [⟨3, 1, 1⟩]⟩ : TrafficHistory).history) ∧
      (∀ h : (⟨900, [⟨3, 1, 1⟩]⟩ : TrafficHistory).history ≠ [],
        (((⟨900, [⟨3, 1, 1⟩]⟩ : TrafficHistory).history.getLast h).secondIndex
            = ⌊(mkRat 7 2 : ℚ)⌋ →
          addBucket ⌊(mkRat 7 2 : ℚ)⌋ 2 (⟨900, [⟨3, 1, 1⟩]⟩ : TrafficHistory).history
            = (⟨900, [⟨3, 1, 1⟩]⟩ : TrafficHistory).history.dropLast
                ++ [⟨⌊(mkRat 7 2 : ℚ)⌋,
                     ((⟨900, [⟨3, 1, 1⟩]⟩ : TrafficHistory).history.getLast h).messageCount + 1,
                     ((⟨900, [⟨3, 1, 1⟩]⟩ : TrafficHistory).history.getLast h).byteCount + 2⟩]) ∧
        (((⟨900, [⟨3, 1, 1⟩]⟩ : TrafficHistory).history.getLast h).secondIndex
            ≠ ⌊(mkRat 7 2 : ℚ)⌋ →
          addBucket ⌊(mkRat 7 2 : ℚ)⌋ 2 (⟨900, [⟨3, 1, 1⟩]⟩ : TrafficHistory).history
            = (⟨900, [⟨3, 1, 1⟩]⟩ : TrafficHistory).history
                ++ [⟨⌊(mkRat 7 2 : ℚ)⌋, 1, 2⟩])) ∧
      ((⟨900, [⟨3, 1, 1⟩]⟩ : TrafficHistory).history = [] →
        addBucket ⌊(mkRat 7 2 : ℚ)⌋ 2 (⟨900, [⟨3, 1, 1⟩]⟩ : TrafficHistory).history
          = [⟨⌊(mkRat 7 2 : ℚ)⌋, 1, 2⟩])) :=
  ⟨by decide, C2_record_coalesce.1 ⟨900, [⟨3, 1, 1⟩]⟩ (mkRat 7 2) 2 (by decide)⟩

theorem pySplit_ne_nil (cs : List Char) : pySplit cs ≠ [] := by
  cases cs with
  | nil => simp [pySplit]
  | cons c rest =>
    cases hps : pySplit rest with
    | nil => simp [pySplit, hps]
    | cons g gs =>
      by_cases hc : c = '/'
      · simp [pySplit, hps, hc]
      · simp [pySplit, hps, hc]

/-- C6: the display key is the `/`-join of the split topic's segments with
indices in `[1, min(len(parts), detail+1))`, and when that join is empty
the key is the full original topic; with the three concrete examples of the
spec. -/
theorem C6_extract_key :
    (∀ (topic : List Char) (detail : ℕ),
      extractDevice topic detail
        = if joinSlash (((pySplit topic).drop 1).take
              (min (pySplit topic).length (detail + 1) - 1)) = []
          then topic
          else joinSlash (((pySplit topic).drop 1).take
              (min (pySplit topic).length (detail + 1) - 1))) ∧
    extractDevice "zigbee2mqtt/bridge/state".toList 1 = "bridge".toList ∧
    extractDevice "zigbee2mqtt/bridge/state".toList 2 = "bridge/state".toList ∧
    extractDevice "zigbee2mqtt".toList 1 = "zigbee2mqtt".toList := by
  refine ⟨?_, by decide, by decide, by decide⟩
  intro topic detail
  have hlen : 1 ≤ (pySplit topic).length :=
    List.length_pos.mpr (pySplit_ne_nil topic)
  have hmin : 1 + (min (pySplit topic).length (detail + 1) - 1)
      = min (pySplit topic).length (detail + 1) := by omega
  have heq : ((pySplit topic).take (min (pySplit topic).length (detail + 1))).drop 1
      = ((pySplit topic).drop 1).take (min (pySplit topic).length (detail + 1) - 1) := by
    rw [List.take_drop, hmin]
  simp only [extractDevice]
  rw [heq]

theorem insertRow_perm (x : List Char × TopicCounters)
    (l : List (List Char × TopicCounters)) :
    List.Perm (insertRow x l) (x :: l) := by
  induction l with
  | nil => exact List.Perm.refl _
  | cons y ys ih =>
    by_cases h : x.2.count ≤ y.2.count
    · simp only [insertRow, if_pos h]
      exact (ih.cons y).trans (List.Perm.swap x y ys)
    · simp only [insertRow, if_neg h]
      exact List.Perm.refl _

theorem foldl_insertRow_perm (stats : List (List Char × TopicCounters)) :
    ∀ acc, List.Perm (stats.foldl (fun a x => insertRow x a) acc) (stats ++ acc) := by
  induction stats with
  | nil => intro acc; exact List.Perm.refl _
  | cons x xs ih =>
    intro acc
    show List.Perm (xs.foldl (fun a x => insertRow x a) (insertRow x acc)) _
    exact ((ih (insertRow x acc)).trans
      ((insertRow_perm x acc).append_left xs)).trans List.perm_middle

theorem insertRow_sorted (x : List Char × TopicCounters)
    (l : List (List Char × TopicCounters)) (hs : RowsSortedDesc l) :
    RowsSortedDesc (insertRow x l) := by
  induction l with
  | nil => simp [insertRow, RowsSortedDesc]
  | cons y ys ih =>
    rcases List.pairwise_cons.mp hs with ⟨hhead, htail⟩
    by_cases h : x.2.count ≤ y.2.count
    · simp only [insertRow, if_pos h]
      refine List.pairwise_cons.mpr ⟨?_, ih htail⟩
      intro z hz
      rcases List.mem_cons.mp ((insertRow_perm x ys).mem_iff.mp hz) with rfl | hz
      · exact h
      · exact hhead z hz
    · simp only [insertRow, if_neg h]
      refine List.pairwise_cons.mpr ⟨?_, hs⟩
      intro z hz
      rcases List.mem_cons.mp hz with rfl | hz
      · exact le_of_lt (not_le.mp h)
      · exact le_trans (hhead z hz) (le_of_lt (not_le.mp h))

theorem foldl_insertRow_sorted (stats : List (List Char × TopicCounters)) :
    ∀ acc, RowsSortedDesc acc →
      RowsSortedDesc (stats.foldl (fun a x => insertRow x a) acc) := by
  induction stats with
  | nil => intro acc h; exact h
  | cons x xs ih =>
    intro acc h
    exact ih (insertRow x acc) (insertRow_sorted x acc h)

theorem insertRow_filter_count (x : List Char × TopicCounters) (c : ℕ)
    (l : List (List Char × TopicCounters)) (hs : RowsSortedDesc l) :
    (insertRow x l).filter (fun r => r.2.count = c)
      = if x.2.count = c
          then l.filter (fun r => r.2.count = c) ++ [x]
          else l.filter (fun r => r.2.count = c) := by
  induction l with
  | nil => by_cases hx : x.2.count = c <;> simp [insertRow, hx]
  | cons y ys ih =>
    rcases List.pairwise_cons.mp hs with ⟨hhead, htail⟩
    by_cases h : x.2.count ≤ y.2.count
    · simp only [insertRow, if_pos h, List.filter_cons]
      rw [ih htail]
      by_cases hy : y.2.count = c <;> by_cases hx : x.2.count = c <;>
        simp [hy, hx]
    · have hlt : y.2.count < x.2.count := not_le.mp h
      simp only [insertRow, if_neg h]
      by_cases hx : x.2.count = c
      · have hempty : (y :: ys).filter (fun r => r.2.count = c) = [] := by
          apply List.filter_eq_nil_iff.mpr
          intro r hr
          rcases List.mem_cons.mp hr with rfl | hr
          · simp only [decide_eq_true_eq]
            omega
          · have := hhead r hr
            simp only [decide_eq_true_eq]
            omega
        rw [if_pos hx, hempty]
        simp [List.filter_cons, hx, hempty]
      · rw [if_neg hx]
        simp [List.filter_cons, hx]

theorem foldl_insertRow_filter (stats : List (List Char × TopicCounters)) (c : ℕ) :
    ∀ acc, RowsSortedDesc acc →
      (stats.foldl (fun a x => insertRow x a) acc).filter (fun r => r.2.count = c)
        = acc.filter (fun r => r.2.count = c)
            ++ stats.filter (fun r => r.2.count = c) := by
  induction stats with
  | nil => intro acc _; simp
  | cons x xs ih =>
    intro acc hacc
    show (xs.foldl (fun a x => insertRow x a) (insertRow x acc)).filter _ = _
    rw [ih (insertRow x acc) (insertRow_sorted x acc hacc),
      insertRow_filter_count x c acc hacc]
    by_cases hx : x.2.count = c
    · simp [List.filter_cons, hx]
    · simp [List.filter_cons, hx]

/-- C7 (amended): the report rows are a permutation of the table rows,
sorted by non-increasing message count, and rows with equal count keep the
table's insertion order (Python's sort is stable); ties are *not* reordered
by key, so two snapshots of tables holding the same rows in different
insertion orders may differ (see the counterexample). -/
theorem C7_snapshot_order (stats : List (List Char × TopicCounters)) :
    List.Perm (sortStats stats) stats ∧
    RowsSortedDesc (sortStats stats) ∧
    ∀ c : ℕ, (sortStats stats).filter (fun r => r.2.count = c)
        = stats.filter (fun r => r.2.count = c) := by
  refine ⟨?_, ?_, ?_⟩
  · simpa using foldl_insertRow_perm stats []
  · exact foldl_insertRow_sorted stats [] List.Pairwise.nil
  · intro c
    simpa using foldl_insertRow_filter stats c [] List.Pairwise.nil

/-- C7 counterexample: two tables holding the same rows (a permutation),
with equal counts, inserted in different orders: the snapshots differ, so
ties are ordered by insertion, not by key, and the output is not
insertion-order independent. -/
theorem C7_snapshot_order_cex :
    List.Perm [("a".toList, (⟨1, 1, 0⟩ : TopicCounters)), ("b".toList, ⟨1, 2, 0⟩)]
        [("b".toList, ⟨1, 2, 0⟩), ("a".toList, ⟨1, 1, 0⟩)] ∧
    sortStats [("a".toList, ⟨1, 1, 0⟩), ("b".toList, ⟨1, 2, 0⟩)]
        ≠ sortStats [("b".toList, ⟨1, 2, 0⟩), ("a".toList, ⟨1, 1, 0⟩)] :=
  ⟨List.Perm.swap _ _ _, by decide⟩

theorem findStat_updateStats (stats : List (List Char × TopicCounters))
    (key k : List Char) (size : ℕ) (now : ℚ) :
    findStat k (updateStats key size now stats)
      = if key = k then
          some (match findStat k stats with
                | none => ⟨1, size, now⟩
                | some c => ⟨c.count + 1, c.bytes + size, now⟩)
        else findStat k stats := by
  induction stats with
  | nil =>
    by_cases hk : key = k
    · subst hk; simp [updateStats, findStat]
    · simp [updateStats, findStat, hk]
  | cons kv rest ih =>
    obtain ⟨k0, c0⟩ := kv
    by_cases h0 : k0 = key
    · subst h0
      by_cases hk : k0 = k
      · subst hk
        simp [updateStats, findStat]
      · simp [updateStats, findStat, hk]
    · by_cases hk : k0 = k
      · subst hk
        have hkey : ¬ key = k0 := fun h => h0 h.symm
        simp [updateStats, findStat, h0, hkey]
      · simp [updateStats, findStat, h0, hk, ih]

theorem runStats_findStat (calls : List (List Char × ℕ × ℚ)) :
    ∀ (stats : List (List Char × TopicCounters)) (k : List Char),
    findStat k (runStats stats calls)
      = (calls.filter fun c => c.1 = k).foldl statStep (findStat k stats) := by
  induction calls with
  | nil => intro stats k; rfl
  | cons c cs ih =>
    intro stats k
    show findStat k (runStats (updateStats c.1 c.2.1 c.2.2 stats) cs) = _
    rw [ih, findStat_updateStats]
    by_cases hk : c.1 = k
    · simp only [List.filter_cons, hk, decide_True, if_pos rfl, List.foldl_cons]
      rfl
    · simp only [List.filter_cons, hk, decide_False, if_neg hk]
      rfl

theorem foldl_statStep_some (cs : List (List Char × ℕ × ℚ)) :
    ∀ x : TopicCounters,
      cs.foldl statStep (some x)
        = some ⟨x.count + cs.length, x.bytes + (cs.map fun c => c.2.1).sum,
                (cs.map fun c => c.2.2).getLastD x.last_seen⟩ := by
  induction cs with
  | nil => intro x; simp
  | cons c cs ih =>
    intro x
    show cs.foldl statStep (statStep (some x) c) = _
    rw [show statStep (some x) c
        = some ⟨x.count + 1, x.bytes + c.2.1, c.2.2⟩ from rfl, ih]
    simp only [List.map_cons, List.getLastD_cons, List.length_cons, List.sum_cons,
      Option.some.injEq, TopicCounters.mk.injEq, and_true, true_and]
    omega

theorem foldl_statStep_none (fk : List (List Char × ℕ × ℚ)) (h : fk ≠ []) :
    fk.foldl statStep none
      = some ⟨fk.length, (fk.map fun c => c.2.1).sum,
              (fk.map fun c => c.2.2).getLastD 0⟩ := by
  cases fk with
  | nil => exact absurd rfl h
  | cons c cs =>
    show cs.foldl statStep (statStep none c) = _
    rw [show statStep none c = some ⟨1, c.2.1, c.2.2⟩ from rfl,
      foldl_statStep_some]
    simp only [List.map_cons, List.getLastD_cons, List.length_cons, List.sum_cons,
      Option.some.injEq, TopicCounters.mk.injEq, and_true, true_and]
    omega

theorem getLastD_map_ts (l : List (List Char × ℕ × ℚ)) (h : l ≠ []) (d : ℚ) :
    (l.map fun c => c.2.2).getLastD d = (l.getLast h).2.2 := by
  induction l generalizing d with
  | nil => exact absurd rfl h
  | cons c cs ih =>
    cases cs with
    | nil => rfl
    | cons c' cs' =>
      rw [List.map_cons, List.getLastD_cons,
        List.getLast_cons (List.cons_ne_nil _ _)]
      exact ih (List.cons_ne_nil _ _) c.2.2

theorem pairwise_ts_le_getLast (l : List (List Char × ℕ × ℚ))
    (hs : l.Pairwise fun a b => a.2.2 ≤ b.2.2) (h : l ≠ []) :
    ∀ c ∈ l, c.2.2 ≤ (l.getLast h).2.2 := by
  induction l with
  | nil => exact absurd rfl h
  | cons c0 rest ih =>
    rcases List.pairwise_cons.mp hs with ⟨hhead, htail⟩
    cases rest with
    | nil => simp
    | cons c' rest' =>
      intro x hx
      have h' : c' :: rest' ≠ [] := List.cons_ne_nil _ _
      rw [List.getLast_cons h']
      rcases List.mem_cons.mp hx with rfl | hx
      · exact hhead _ (List.getLast_mem h')
      · exact ih htail h' x hx

/-- C8 (amended): after any finite sequence of `record(key, size, timestamp)`
calls, each recorded key's counters hold `count` = number of calls for that
key, `bytes` = sum of their sizes, and `last_seen` = the timestamp of the
*last* call for that key (the source overwrites it each call); when the
timestamps are non-decreasing this is the maximum observed timestamp, but in
general it need not be (see the counterexample). -/
theorem C8_per_key_counters :
    (∀ (calls : List (List Char × ℕ × ℚ)) (k : List Char)
        (h : calls.filter (fun c => c.1 = k) ≠ []),
        findStat k (runStats [] calls)
          = some ⟨(calls.filter fun c => c.1 = k).length,
                  ((calls.filter fun c => c.1 = k).map fun c => c.2.1).sum,
                  ((calls.filter fun c => c.1 = k).getLast h).2.2⟩) ∧
    (∀ (calls : List (List Char × ℕ × ℚ)) (k : List Char),
        calls.filter (fun c => c.1 = k) = [] →
        findStat k (runStats [] calls) = none) ∧
    (∀ (calls : List (List Char × ℕ × ℚ)) (k : List Char)
        (h : calls.filter (fun c => c.1 = k) ≠ []),
        List.Chain' (· ≤ ·) (calls.map fun c => c.2.2) →
        ∀ c ∈ calls.filter (fun c => c.1 = k),
          c.2.2 ≤ ((calls.filter fun c => c.1 = k).getLast h).2.2) := by
  refine ⟨?_, ?_, ?_⟩
  · intro calls k h
    rw [runStats_findStat]
    show (calls.filter fun c => c.1 = k).foldl statStep none = _
    rw [foldl_statStep_none _ h, getLastD_map_ts _ h]
  · intro calls k hempty
    rw [runStats_findStat]
    show (calls.filter fun c => c.1 = k).foldl statStep none = none
    rw [hempty]
    rfl
  · intro calls k h hchain
    have hpw : calls.Pairwise fun a b => a.2.2 ≤ b.2.2 := by
      have := List.chain'_iff_pairwise.mp hchain
      exact (List.pairwise_map.mp this)
    have hpwf : (calls.filter fun c => c.1 = k).Pairwise
        fun a b => a.2.2 ≤ b.2.2 :=
      hpw.sublist (List.filter_sublist calls)
    exact pairwise_ts_le_getLast _ hpwf h

theorem C8_per_key_counters_witness :
    ([("a".toList, 1, (5 : ℚ)), ("b".toList, 2, 6), ("a".toList, 3, 7)].filter
        (fun c => c.1 = "a".toList) ≠ []) ∧
    findStat "a".toList
        (runStats [] [("a".toList, 1, (5 : ℚ)), ("b".toList, 2, 6), ("a".toList, 3, 7)])
      = some ⟨([("a".toList, 1, (5 : ℚ)), ("b".toList, 2, 6), ("a".toList, 3, 7)].filter
                  (fun c => c.1 = "a".toList)).length,
              (([("a".toList, 1, (5 : ℚ)), ("b".toList, 2, 6), ("a".toList, 3, 7)].filter
                  (fun c => c.1 = "a".toList)).map fun c => c.2.1).sum,
              (([("a".toList, 1, (5 : ℚ)), ("b".toList, 2, 6), ("a".toList, 3, 7)].filter
                  (fun c => c.1 = "a".toList)).getLast (by decide)).2.2⟩ ∧
    findStat "z".toList
        (runStats [] [("a".toList, 1, (5 : ℚ)), ("b".toList, 2, 6), ("a".toList, 3, 7)])
      = none :=
  ⟨by decide,
   C8_per_key_counters.1
     [("a".toList, 1, (5 : ℚ)), ("b".toList, 2, 6), ("a".toList, 3, 7)]
     "a".toList (by decide),
   C8_per_key_counters.2.1
     [("a".toList, 1, (5 : ℚ)), ("b".toList, 2, 6), ("a".toList, 3, 7)]
     "z".toList (by decide)⟩

/-- C8 counterexample: two calls for key `"a"` with timestamps 5 then 3
(out of order).  The stored `last_seen` is 3, the timestamp of the most
recent call, although the maximum timestamp observed for the key is 5 —
contradicting the claim that `lastSeen` is the maximum observed. -/
theorem C8_per_key_counters_cex :
    findStat "a".toList
        (runStats [] [("a".toList, 1, (5 : ℚ)), ("a".toList, 1, 3)])
      = some ⟨2, 2, 3⟩ ∧
    ¬ ((5 : ℚ) ≤ 3) :=
  ⟨by decide, by decide⟩

theorem updateStats_count_sum (key : List Char) (size : ℕ) (now : ℚ)
    (stats : List (List Char × TopicCounters)) :
    ((updateStats key size now stats).map fun kv => kv.2.count).sum
      = (stats.map fun kv => kv.2.count).sum + 1 := by
  induction stats with
  | nil => simp [updateStats]
  | cons kv rest ih =>
    obtain ⟨k, c⟩ := kv
    by_cases hk : k = key
    · simp only [updateStats, if_pos hk, List.map_cons, List.sum_cons]
      omega
    · simp only [updateStats, if_neg hk, List.map_cons, List.sum_cons, ih]
      omega

theorem updateStats_bytes_sum (key : List Char) (size : ℕ) (now : ℚ)
    (stats : List (List Char × TopicCounters)) :
    ((updateStats key size now stats).map fun kv => kv.2.bytes).sum
      = (stats.map fun kv => kv.2.bytes).sum + size := by
  induction stats with
  | nil => simp [updateStats]
  | cons kv rest ih =>
    obtain ⟨k, c⟩ := kv
    by_cases hk : k = key
    · simp only [updateStats, if_pos hk, List.map_cons, List.sum_cons]
      omega
    · simp only [updateStats, if_neg hk, List.map_cons, List.sum_cons, ih]
      omega

theorem on_message_skip (cfg : MonitorConfig) (st : MonitorState)
    (topic : List Char) (size : ℕ) (now : ℚ)
    (h : (cfg.ignore_bridge
        && charsContain (cfg.base_topic ++ "/bridge".toList) topic) = true) :
    on_message cfg st topic size now = st := by
  unfold on_message
  rw [if_pos h]

/-- C9: after every completed ingest, the incrementally maintained grand
totals agree with recomputation: `total_messages` is the sum of all per-key
counts and `total_bytes` the sum of all per-key byte counters. -/
theorem C9_totals_consistent (cfg : MonitorConfig)
    (msgs : List (List Char × ℕ × ℚ)) :
    (runMessages cfg initState msgs).total_messages
        = ((runMessages cfg initState msgs).topic_stats.map fun kv => kv.2.count).sum ∧
    (runMessages cfg initState msgs).total_bytes
        = ((runMessages cfg initState msgs).topic_stats.map fun kv => kv.2.bytes).sum := by
  suffices h : ∀ (ms : List (List Char × ℕ × ℚ)) (st : MonitorState),
      st.total_messages = (st.topic_stats.map fun kv => kv.2.count).sum →
      st.total_bytes = (st.topic_stats.map fun kv => kv.2.bytes).sum →
      (runMessages cfg st ms).total_messages
          = ((runMessages cfg st ms).topic_stats.map fun kv => kv.2.count).sum ∧
      (runMessages cfg st ms).total_bytes
          = ((runMessages cfg st ms).topic_stats.map fun kv => kv.2.bytes).sum by
    exact h msgs initState (by simp [initState]) (by simp [initState])
  intro ms
  induction ms with
  | nil => intro st h1 h2; exact ⟨h1, h2⟩
  | cons m rest ih =>
    intro st h1 h2
    show (runMessages cfg (on_message cfg st m.1 m.2.1 m.2.2) rest).total_messages
        = _ ∧ _
    by_cases hig : (cfg.ignore_bridge
        && charsContain (cfg.base_topic ++ "/bridge".toList) m.1) = true
    · exact ih (on_message cfg st m.1 m.2.1 m.2.2)
        (by rw [on_message_skip cfg st m.1 m.2.1 m.2.2 hig]; exact h1)
        (by rw [on_message_skip cfg st m.1 m.2.1 m.2.2 hig]; exact h2)
    · refine ih (on_message cfg st m.1 m.2.1 m.2.2) ?_ ?_
      · simp only [on_message, if_neg hig]
        rw [updateStats_count_sum, h1]
      · simp only [on_message, if_neg hig]
        rw [updateStats_bytes_sum, h2]

/-- C10: when ignore-bridge is enabled, a delivery whose topic contains
the base topic followed by `/bridge` as a substring anywhere returns without touching
any state: the table, both totals and the traffic history are unchanged. -/
theorem C10_ignore_bridge (cfg : MonitorConfig) (st : MonitorState)
    (topic : List Char) (size : ℕ) (now : ℚ)
    (hig : cfg.ignore_bridge = true)
    (hsub : charsContain (cfg.base_topic ++ "/bridge".toList) topic = true) :
    on_message cfg st topic size now = st :=
  on_message_skip cfg st topic size now (by rw [hig, hsub]; rfl)

theorem C10_ignore_bridge_witness :
    (⟨"zigbee2mqtt".toList, true, 1⟩ : MonitorConfig).ignore_bridge = true ∧
    charsContain ("zigbee2mqtt".toList ++ "/bridge".toList)
        "zigbee2mqtt/dev/zigbee2mqtt/bridge/state".toList = true ∧
    (charsStartWith ("zigbee2mqtt".toList ++ "/bridge".toList)
        "zigbee2mqtt/dev/zigbee2mqtt/bridge/state".toList = false) ∧
    on_message ⟨"zigbee2mqtt".toList, true, 1⟩ initState
        "zigbee2mqtt/dev/zigbee2mqtt/bridge/state".toList 3 7 = initState :=
  ⟨rfl, by decide, by decide,
   C10_ignore_bridge ⟨"zigbee2mqtt".toList, true, 1⟩ initState
     "zigbee2mqtt/dev/zigbee2mqtt/bridge/state".toList 3 7 rfl (by decide)⟩
